import Mathlib

/-! Verification of the PBO archive parser of src/pboParser.js.

The embedding works over byte buffers modelled as lists of natural numbers
(each 0..255 in a real Buffer). Strings produced by the code are kept as
the byte sequences the code decodes; fields of the JavaScript objects keep
their names. Unbounded while loops receive an explicit fuel argument and
report completion through a Boolean (or an Option); fuel sufficiency or
divergence is proved where a claim depends on it. Out of range assignments
to a Node Buffer are discarded and out of range reads yield 0, exactly as
Uint8Array indexing behaves, and that behaviour is modelled here. -/

namespace PBO

def PACKING_METHOD_UNCOMPRESSED : Nat := 0x00000000

def PACKING_METHOD_PACKED : Nat := 0x43707273

def PACKING_METHOD_PRODUCT : Nat := 0x56657273

/-! ## Byte cursor: readCString and readUInt32LE -/

/-- The scanning loop of readCString: while (end < buffer.length and
buffer[end] is not 0) end++. The first argument counts the remaining
positions, buffer.length - end, so the recursion is structural. -/
def cstrEndGo (buffer : List Nat) : Nat → Nat → Nat
  | 0, e => e
  | n + 1, e => if buffer.getD e 0 ≠ 0 then cstrEndGo buffer n (e + 1) else e

/-- The index where the scan of readCString stops: the first zero byte at or
after offset, or the buffer end, or offset itself when offset is past the
end. -/
def cstrEnd (buffer : List Nat) (offset : Nat) : Nat :=
  cstrEndGo buffer (buffer.length - offset) offset

structure CStringRead where
  value : List Nat
  newOffset : Nat
deriving DecidableEq

/-- readCString(buffer, offset): scan to the first zero byte or the buffer
end, decode the bytes in between, and return the position one past the
stopping point. -/
def readCString (buffer : List Nat) (offset : Nat) : CStringRead :=
  { value := (buffer.drop offset).take (cstrEnd buffer offset - offset)
    newOffset := cstrEnd buffer offset + 1 }

/-- The error taxonomy of the specification. The code itself only ever
produces outOfBounds (the RangeError of Buffer.readUInt32LE); the other
constructors exist so that statements can distinguish them. -/
inductive PBOError where
  | outOfBounds
  | malformedArchive
  | decompressionError
deriving DecidableEq

/-- buffer.readUInt32LE(offset): little endian 32 bit read, throwing a
range error when the four bytes would cross the buffer end. -/
def readUInt32LE (buffer : List Nat) (offset : Nat) : Except PBOError Nat :=
  if offset + 4 ≤ buffer.length then
    .ok (buffer.getD offset 0 + 256 * buffer.getD (offset + 1) 0 +
      65536 * buffer.getD (offset + 2) 0 + 16777216 * buffer.getD (offset + 3) 0)
  else .error .outOfBounds

/-! ## Header entry and property readers -/

structure HeaderEntry where
  fileName : List Nat
  packingMethod : Nat
  originalSize : Nat
  reserved : Nat
  timeStamp : Nat
  dataSize : Nat
  newOffset : Nat
deriving DecidableEq

/-- readHeaderEntry(buffer, offset): a cstring fileName followed by five
little endian u32 fields in fixed order. -/
def readHeaderEntry (buffer : List Nat) (offset : Nat) : Except PBOError HeaderEntry := do
  let fileName := readCString buffer offset
  let o1 := fileName.newOffset
  let packingMethod ← readUInt32LE buffer o1
  let originalSize ← readUInt32LE buffer (o1 + 4)
  let reserved ← readUInt32LE buffer (o1 + 8)
  let timeStamp ← readUInt32LE buffer (o1 + 12)
  let dataSize ← readUInt32LE buffer (o1 + 16)
  pure { fileName := fileName.value, packingMethod := packingMethod,
         originalSize := originalSize, reserved := reserved,
         timeStamp := timeStamp, dataSize := dataSize, newOffset := o1 + 20 }

structure PropertyRead where
  name : Option (List Nat)
  value : Option (List Nat)
  newOffset : Nat
deriving DecidableEq

/-- readProperty(buffer, offset): a name cstring, and unless the name is
empty, a value cstring after it. -/
def readProperty (buffer : List Nat) (offset : Nat) : PropertyRead :=
  let name := readCString buffer offset
  if name.value = [] then
    { name := none, value := none, newOffset := name.newOffset }
  else
    let value := readCString buffer name.newOffset
    { name := some name.value, value := some value.value, newOffset := value.newOffset }

/-- The property block loop of parse: read properties until one with an
empty name, returning the offset after that terminator. The recorded pairs
are only logged by the code, so the model returns the offset alone. -/
def propLoop (buffer : List Nat) : Nat → Nat → Option Nat
  | 0, _ => none
  | fuel + 1, offset =>
    let prop := readProperty buffer offset
    match prop.name with
    | none => some prop.newOffset
    | some _ => propLoop buffer fuel prop.newOffset

/-- The entry table loop of parse: read header entries, appending each to
the accumulated table, until one with an empty fileName is read; that
boundary marker is not appended and its end offset is returned. -/
def entryLoop (buffer : List Nat) :
    Nat → Nat → List HeaderEntry → Option (Except PBOError (List HeaderEntry × Nat))
  | 0, _, _ => none
  | fuel + 1, offset, entries =>
    match readHeaderEntry buffer offset with
    | .error e => some (.error e)
    | .ok he =>
      if he.fileName = [] then some (.ok (entries, he.newOffset))
      else entryLoop buffer fuel he.newOffset (entries ++ [he])

/-! ## The LZH decompressor -/

/-- The mutable state of decompressLZH. written holds the bytes stored into
the output Buffer so far (every store is at index outputPos, so the stored
region is an initial segment); outputPos and inputPos are the two cursors;
reads records every input index the code reads, for the bounds claims. -/
structure LZHState where
  written : List Nat
  outputPos : Nat
  inputPos : Nat
  reads : List Nat
deriving DecidableEq

/-- output[outputPos++] = v on a Buffer of length originalSize: the store
is discarded when the index is out of range (Uint8Array semantics), v is
masked to a byte, and the cursor always advances. -/
def bufWrite (originalSize : Nat) (st : LZHState) (v : Nat) : LZHState :=
  { st with
    written := if st.outputPos < originalSize then st.written ++ [v % 256] else st.written
    outputPos := st.outputPos + 1 }

/-- Record that input index i was read. -/
def noteRead (st : LZHState) (i : Nat) : LZHState :=
  { st with reads := st.reads ++ [i] }

/-- output[i] on the output Buffer: a stored byte, or 0 for an index that is
unwritten (Buffer.alloc zero fill) or out of range (undefined, which the
subsequent store coerces to 0). -/
def outReadByte (st : LZHState) (i : Nat) : Nat :=
  st.written.getD i 0

/-- The first back reference branch, rpos + rlen < 0: for (j = 0; j < rlen;
j++) output[outputPos++] = 0x20. -/
def writeSpaces (originalSize : Nat) : Nat → LZHState → LZHState
  | 0, st => st
  | n + 1, st => writeSpaces originalSize n (bufWrite originalSize st 0x20)

/-- The padding loop while (rpos < 0) { output[outputPos++] = 0x20; rlen--; }.
rpos is a const that the body never changes, so when rpos < 0 the loop can
only stop by running out of fuel, reported as a false completion flag. -/
def padWhile (originalSize : Nat) (rpos : Int) :
    Nat → Int → LZHState → LZHState × Int × Bool
  | 0, rlen, st =>
    if rpos < 0 then (st, rlen, false) else (st, rlen, true)
  | fuel + 1, rlen, st =>
    if rpos < 0 then padWhile originalSize rpos fuel (rlen - 1) (bufWrite originalSize st 0x20)
    else (st, rlen, true)

/-- The self referential copy: for (j = 0; j < rlen; j++)
output[outputPos++] = output[copyPos++], reading the current buffer so
bytes written by earlier iterations are visible. -/
def copyLoop (originalSize : Nat) : Nat → Nat → LZHState → LZHState
  | 0, _, st => st
  | n + 1, copyPos, st =>
    copyLoop originalSize n (copyPos + 1) (bufWrite originalSize st (outReadByte st copyPos))

/-- The inner for loop of a round: up to 8 sub operations, one per control
bit, each a literal copy or a back reference. The first argument counts
the sub operations still allowed (8 - i) and the second is the bit index i. -/
def innerLoop (input : List Nat) (originalSize : Nat) (format : Nat) (padFuel : Nat) :
    Nat → Nat → LZHState → LZHState × Bool
  | 0, _, st => (st, true)
  | n + 1, i, st =>
    if st.outputPos < originalSize ∧ st.inputPos < input.length - 2 then
      if (format >>> i) &&& 1 = 1 then
        let b := input.getD st.inputPos 0
        let st1 := noteRead st st.inputPos
        innerLoop input originalSize format padFuel n (i + 1)
          (bufWrite originalSize { st1 with inputPos := st1.inputPos + 1 } b)
      else
        let pointer := input.getD st.inputPos 0 + 256 * input.getD (st.inputPos + 1) 0
        let st1 := noteRead (noteRead st st.inputPos) (st.inputPos + 1)
        let st2 := { st1 with inputPos := st1.inputPos + 2 }
        let rpos : Int := (st2.outputPos : Int) -
          (((pointer &&& 0x00ff) + ((pointer &&& 0xf000) >>> 4) : Nat) : Int)
        let rlen : Nat := ((pointer &&& 0x0f00) >>> 8) + 3
        if rpos + (rlen : Int) < 0 then
          innerLoop input originalSize format padFuel n (i + 1) (writeSpaces originalSize rlen st2)
        else
          let copyPos : Nat := (max 0 rpos).toNat
          let pr := padWhile originalSize rpos padFuel (rlen : Int) st2
          if pr.2.2 then
            let st4 := if pr.2.1 > 0 then copyLoop originalSize pr.2.1.toNat copyPos pr.1 else pr.1
            innerLoop input originalSize format padFuel n (i + 1) st4
          else (pr.1, false)
    else (st, true)

/-- The outer round loop of decompressLZH: while output is short and input
remains, read a control byte and run the inner loop. A false flag means
the fuel ran out, which only happens on a run the code never finishes. -/
def roundsLoop (input : List Nat) (originalSize : Nat) : Nat → LZHState → LZHState × Bool
  | 0, st =>
    if st.outputPos < originalSize ∧ st.inputPos < input.length then (st, false) else (st, true)
  | fuel + 1, st =>
    if st.outputPos < originalSize ∧ st.inputPos < input.length then
      let format := input.getD st.inputPos 0
      let st1 := { noteRead st st.inputPos with inputPos := st.inputPos + 1 }
      let ir := innerLoop input originalSize format fuel 8 0 st1
      if ir.2 then roundsLoop input originalSize fuel ir.1 else (ir.1, false)
    else (st, true)

/-- decompressLZH(compressedData, originalSize), run with the given fuel. -/
def decompressLZH (fuel : Nat) (compressedData : List Nat) (originalSize : Nat) :
    LZHState × Bool :=
  roundsLoop compressedData originalSize fuel
    { written := [], outputPos := 0, inputPos := 0, reads := [] }

/-- The bytes of the output Buffer at the end of decompressLZH: the stored
initial segment followed by the untouched zero fill of Buffer.alloc. -/
def outputBytes (originalSize : Nat) (st : LZHState) : List Nat :=
  st.written ++ List.replicate (originalSize - st.written.length) 0

/-! ## The extraction loop and parse -/

def toLowerByte (b : Nat) : Nat := if 65 ≤ b ∧ b ≤ 90 then b + 32 else b

/-- fileName.toLowerCase() on the byte level (ASCII letters). -/
def lowerName (l : List Nat) : List Nat := l.map toLowerByte

/-- fileName.toLowerCase().endsWith(".c") || ...endsWith(".cpp"). -/
def includedExt (l : List Nat) : Bool :=
  [46, 99].isSuffixOf (lowerName l) || [46, 99, 112, 112].isSuffixOf (lowerName l)

/-- fileName.split(/[\\/]/).pop(): the part after the last slash or
backslash. -/
def baseName (l : List Nat) : List Nat :=
  (l.reverse.takeWhile (fun b => b != 47 && b != 92)).reverse

structure ExtractedFile where
  path : List Nat
  name : List Nat
  content : List Nat
  lines : List (List Nat)
  size : Nat
deriving DecidableEq

/-- The record pushed onto this.files for one extracted entry. -/
def mkExtractedFile (fileName content : List Nat) : ExtractedFile :=
  { path := fileName, name := baseName fileName, content := content,
    lines := content.splitOn 10, size := content.length }

/-- The for loop of parse over the entry table: slice dataSize bytes for
each entry, decode or decompress script files, and push a record; always
advance the running offset by dataSize. A none result means a packed entry
made decompressLZH run out of fuel. -/
def processEntries (buffer : List Nat) (fuel : Nat) :
    List HeaderEntry → Nat → List ExtractedFile → Option (List ExtractedFile)
  | [], _, files => some files
  | entry :: rest, offset, files =>
    if includedExt entry.fileName then
      let fileData := (buffer.drop offset).take entry.dataSize
      let offset1 := offset + entry.dataSize
      if entry.packingMethod = PACKING_METHOD_UNCOMPRESSED then
        processEntries buffer fuel rest offset1
          (files ++ [mkExtractedFile entry.fileName fileData])
      else if entry.packingMethod = PACKING_METHOD_PACKED then
        let dr := decompressLZH fuel fileData entry.originalSize
        if dr.2 then
          processEntries buffer fuel rest offset1
            (files ++ [mkExtractedFile entry.fileName (outputBytes entry.originalSize dr.1)])
        else none
      else processEntries buffer fuel rest offset1 files
    else processEntries buffer fuel rest (offset + entry.dataSize) files

/-- parse() on a PBOParser instance whose this.files currently holds
filesState, over the bytes of the archive at this.pboPath. Mirrors the
method: read the first header entry, consume a property block when it is
the product marker or push it when it is a named content entry, build the
entry table up to the boundary marker, then run the extraction loop, which
appends to this.files and returns it. -/
def parse (fuel : Nat) (filesState : List ExtractedFile) (buffer : List Nat) :
    Option (Except PBOError (List ExtractedFile)) :=
  match readHeaderEntry buffer 0 with
  | .error e => some (.error e)
  | .ok firstEntry =>
    let afterFirst : Option (Nat × List HeaderEntry) :=
      if firstEntry.packingMethod = PACKING_METHOD_PRODUCT then
        match propLoop buffer fuel firstEntry.newOffset with
        | none => none
        | some off => some (off, [])
      else if firstEntry.fileName ≠ [] then some (firstEntry.newOffset, [firstEntry])
      else some (firstEntry.newOffset, [])
    match afterFirst with
    | none => none
    | some (off, entries0) =>
      match entryLoop buffer fuel off entries0 with
      | none => none
      | some (.error e) => some (.error e)
      | some (.ok (entries, off1)) =>
        match processEntries buffer fuel entries off1 filesState with
        | none => none
        | some files => some (.ok files)

/-! ## Divergence of the negative back reference padding loop

The body of while (rpos < 0) { output[outputPos++] = 0x20; rlen--; } never
changes rpos, so once entered the loop runs forever. -/

lemma padWhile_neg (originalSize : Nat) (rpos : Int) (h : rpos < 0) :
    ∀ (fuel : Nat) (rlen : Int) (st : LZHState),
    (padWhile originalSize rpos fuel rlen st).2.2 = false := by
  intro fuel
  induction fuel with
  | zero => intro rlen st; simp [padWhile, h]
  | succ n ih => intro rlen st; simp only [padWhile, if_pos h]; exact ih _ _

lemma innerLoop_backref_diverges (input : List Nat) (os fmt pf n i : Nat) (st : LZHState)
    (hcond : st.outputPos < os ∧ st.inputPos < input.length - 2)
    (hbit : ¬ ((fmt >>> i) &&& 1 = 1))
    (hneg : (st.outputPos : Int) -
        ((((input.getD st.inputPos 0 + 256 * input.getD (st.inputPos + 1) 0) &&& 0x00ff) +
          (((input.getD st.inputPos 0 + 256 * input.getD (st.inputPos + 1) 0) &&& 0xf000) >>> 4) : Nat) : Int) < 0)
    (hnn : ¬ ((st.outputPos : Int) -
        ((((input.getD st.inputPos 0 + 256 * input.getD (st.inputPos + 1) 0) &&& 0x00ff) +
          (((input.getD st.inputPos 0 + 256 * input.getD (st.inputPos + 1) 0) &&& 0xf000) >>> 4) : Nat) : Int) +
        (((((input.getD st.inputPos 0 + 256 * input.getD (st.inputPos + 1) 0) &&& 0x0f00) >>> 8) + 3 : Nat) : Int) < 0)) :
    (innerLoop input os fmt pf (n + 1) i st).2 = false := by
  simp only [innerLoop, noteRead]
  rw [if_pos hcond, if_neg hbit, if_neg hnn]
  rw [padWhile_neg os _ hneg pf]
  simp

lemma roundsLoop_inner_false (input : List Nat) (os n : Nat) (st : LZHState)
    (hcond : st.outputPos < os ∧ st.inputPos < input.length)
    (hinner : (innerLoop input os (input.getD st.inputPos 0) n 8 0
        { noteRead st st.inputPos with inputPos := st.inputPos + 1 }).2 = false) :
    (roundsLoop input os (n + 1) st).2 = false := by
  simp only [roundsLoop]
  rw [if_pos hcond]
  simp only [hinner]
  simp

/-- C1: the claim says decompressLZH terminates and returns for every
compressed input and originalSize. It does not: on the four byte input
0x00 0x01 0x00 0xFF with originalSize 1, the single back reference has
rpos = -1 and rlen = 3, so rpos + rlen is not negative and the code enters
while (rpos < 0), whose body never changes rpos; no amount of fuel makes
the run finish. -/
theorem C1_decompress_diverges (fuel : Nat) :
    (decompressLZH fuel [0, 1, 0, 255] 1).2 = false := by
  match fuel with
  | 0 => rfl
  | n + 1 =>
    refine roundsLoop_inner_false _ _ _ _ (by decide) ?_
    exact innerLoop_backref_diverges _ _ _ _ 7 0 _ (by decide) (by decide) (by decide) (by decide)

/-- C3: the claim describes the partially negative back reference case,
rpos < 0 and rpos + rlen not negative, as padding exactly min(rlen, -rpos)
spaces and then copying the remaining bytes from the output buffer. The
code never does that: on input 0x00 0x02 0x00 0xFF 0xFF with originalSize
5, the back reference has rpos = -2 and rlen = 3, and the padding loop
while (rpos < 0) never changes rpos, so the run never finishes and the
copy step is unreachable. -/
theorem C3_backref_pad_diverges (fuel : Nat) :
    (decompressLZH fuel [0, 2, 0, 255, 255] 5).2 = false := by
  match fuel with
  | 0 => rfl
  | n + 1 =>
    refine roundsLoop_inner_false _ _ _ _ (by decide) ?_
    exact innerLoop_backref_diverges _ _ _ _ 7 0 _ (by decide) (by decide) (by decide) (by decide)

/-! ## Concrete archives for the scenario claims -/

/-- The Scenario A buffer: HeaderEntry("test.c", 0, 5, 0, 0, 5), the
boundary HeaderEntry("", 0, 0, 0, 0, 0), then the bytes of "hello". -/
def scenarioABuffer : List Nat :=
  [116, 101, 115, 116, 46, 99, 0] ++
  [0, 0, 0, 0] ++ [5, 0, 0, 0] ++ [0, 0, 0, 0] ++ [0, 0, 0, 0] ++ [5, 0, 0, 0] ++
  List.replicate 21 0 ++
  [104, 101, 108, 108, 111]

/-- C8: Scenario A. parse returns exactly one ExtractedFile with path
"test.c", content "hello" and size 5. -/
theorem C8_scenarioA :
    parse 100 [] scenarioABuffer =
      some (.ok [{ path := [116, 101, 115, 116, 46, 99],
                   name := [116, 101, 115, 116, 46, 99],
                   content := [104, 101, 108, 108, 111],
                   lines := [[104, 101, 108, 108, 111]],
                   size := 5 }]) := by
  rfl

/-- C2 counterexample: a single all literal round, control byte 0xFF
followed by its 8 literal bytes, with originalSize 8. The run finishes but
the output is not the literal byte sequence: the inner loop guard
inputPos < length - 2 refuses the last two literals, which come out as the
zero fill of the output buffer instead. -/
theorem C2_identity_cex :
    (decompressLZH 100 [255, 104, 101, 108, 108, 111, 33, 34, 35] 8).2 = true ∧
      outputBytes 8 (decompressLZH 100 [255, 104, 101, 108, 108, 111, 33, 34, 35] 8).1 ≠
        [104, 101, 108, 108, 111, 33, 34, 35] := by
  decide

/-- C5 counterexample: the truncated archive 0x61 0x00 (a one byte name
and nothing else) makes parse fail with outOfBounds, raised by
readUInt32LE, not with malformedArchive, which the code never produces. -/
theorem C5_truncated_cex :
    parse 100 [] [97, 0] = some (.error PBOError.outOfBounds) ∧
      PBOError.outOfBounds ≠ PBOError.malformedArchive :=
  ⟨rfl, by decide⟩

/-- C7 counterexample: an archive that is exactly one boundary marker (an
empty fileName entry, 21 zero bytes). If table building stopped at the
first empty fileName header entry, parse would return an empty file list;
instead the code treats the first entry specially, reads on past the
buffer end and fails with outOfBounds. -/
theorem C7_first_marker_cex :
    parse 100 [] (List.replicate 21 0) = some (.error PBOError.outOfBounds) := by
  rfl

/-- An archive with a packed entry "a.c" (packingMethod 0x43707273,
originalSize 10, dataSize 3) whose three compressed bytes produce no
output, followed by an uncompressed entry "b.c" carrying "hi". -/
def shortPackedBuffer : List Nat :=
  [97, 46, 99, 0] ++
  [115, 114, 112, 67] ++ [10, 0, 0, 0] ++ [0, 0, 0, 0] ++ [0, 0, 0, 0] ++ [3, 0, 0, 0] ++
  [98, 46, 99, 0] ++
  [0, 0, 0, 0] ++ [2, 0, 0, 0] ++ [0, 0, 0, 0] ++ [0, 0, 0, 0] ++ [2, 0, 0, 0] ++
  List.replicate 21 0 ++
  [255, 65, 66] ++ [104, 105]

/-- C6 counterexample: the packed entry whose compressed bytes cannot yield
its originalSize of 10 bytes is not skipped and raises nothing; parse
returns a record for it whose content is the zero fill of the output
buffer, alongside the well formed entry. -/
theorem C6_short_packed_cex :
    parse 100 [] shortPackedBuffer =
      some (.ok [{ path := [97, 46, 99], name := [97, 46, 99],
                   content := List.replicate 10 0,
                   lines := [List.replicate 10 0],
                   size := 10 },
                 { path := [98, 46, 99], name := [98, 46, 99],
                   content := [104, 105], lines := [[104, 105]], size := 2 }]) := by
  rfl

/-- The Scenario A archive again, as the input of the statefulness
counterexample. -/
def repeatParseBuffer : List Nat :=
  [116, 101, 115, 116, 46, 99, 0] ++
  [0, 0, 0, 0] ++ [5, 0, 0, 0] ++ [0, 0, 0, 0] ++ [0, 0, 0, 0] ++ [5, 0, 0, 0] ++
  List.replicate 21 0 ++
  [104, 101, 108, 108, 111]

/-- The single record the first parse call over repeatParseBuffer pushes. -/
def repeatParseFile : ExtractedFile :=
  { path := [116, 101, 115, 116, 46, 99], name := [116, 101, 115, 116, 46, 99],
    content := [104, 101, 108, 108, 111], lines := [[104, 101, 108, 108, 111]], size := 5 }

/-- C9 counterexample: a first parse call on a fresh instance returns one
record and leaves it in this.files; a second call on the same instance over
the same archive returns the list doubled, not an equal list. -/
theorem C9_stateful_cex :
    parse 100 [] repeatParseBuffer = some (.ok [repeatParseFile]) ∧
      parse 100 [repeatParseFile] repeatParseBuffer =
        some (.ok [repeatParseFile, repeatParseFile]) ∧
      [repeatParseFile, repeatParseFile] ≠ [repeatParseFile] :=
  ⟨rfl, rfl, by decide⟩

/-- C10 counterexample: calling readCString on the empty buffer at offset 5
returns the empty value, but newOffset is 6, not buffer.length + 1 = 1,
even though no zero byte exists before the buffer end. -/
theorem C10_readCString_cex :
    (readCString [] 5).value = [] ∧ (readCString [] 5).newOffset = 6 ∧
      (6 : Nat) ≠ List.length ([] : List Nat) + 1 := by
  decide

/-! ## C10: total behaviour of readCString -/

lemma cstrEndGo_eq (buffer : List Nat) :
    ∀ (n e : Nat), buffer.length ≤ e + n →
      cstrEndGo buffer n e = e + ((buffer.drop e).takeWhile (fun b => b != 0)).length := by
  intro n
  induction n with
  | zero =>
    intro e h
    rw [List.drop_eq_nil_of_le (by omega)]
    simp [cstrEndGo]
  | succ k ih =>
    intro e h
    by_cases he : e < buffer.length
    · rw [List.drop_eq_getElem_cons he]
      have hgd : buffer.getD e 0 = buffer[e] := by
        simp [List.getD_eq_getElem?_getD, List.getElem?_eq_getElem he]
      by_cases hz : buffer[e] = 0
      · have : ¬ (buffer.getD e 0 ≠ 0) := by rw [hgd]; simp [hz]
        simp only [cstrEndGo, if_neg this]
        rw [List.takeWhile_cons_of_neg (by simp [hz])]
        simp
      · have hne : buffer.getD e 0 ≠ 0 := by rw [hgd]; exact hz
        simp only [cstrEndGo, if_pos hne]
        rw [ih (e + 1) (by omega)]
        rw [List.takeWhile_cons_of_pos (by simp [hz])]
        simp
        omega
    · have hge : buffer.length ≤ e := by omega
      rw [List.drop_eq_nil_of_le hge]
      have : ¬ (buffer.getD e 0 ≠ 0) := by
        simp [List.getD_eq_getElem?_getD, List.getElem?_eq_none hge]
      simp only [cstrEndGo, if_neg this]
      simp

lemma cstrEnd_eq (buffer : List Nat) (offset : Nat) :
    cstrEnd buffer offset =
      offset + ((buffer.drop offset).takeWhile (fun b => b != 0)).length := by
  unfold cstrEnd
  exact cstrEndGo_eq buffer (buffer.length - offset) offset (by omega)

/-- C10 amended: readCString is total; its value is the run of nonzero
bytes starting at offset, and newOffset is offset + value.length + 1. When
no zero byte exists at or after offset the returned newOffset equals
max(offset, buffer.length) + 1 — which is buffer.length + 1 only when
offset is at most buffer.length — and a call at or beyond the buffer end
yields the empty string, indistinguishable from a boundary marker. -/
theorem C10_readCString_amended (buffer : List Nat) (offset : Nat) :
    (readCString buffer offset).value = (buffer.drop offset).takeWhile (fun b => b != 0) ∧
      (readCString buffer offset).newOffset =
        offset + ((buffer.drop offset).takeWhile (fun b => b != 0)).length + 1 ∧
      (buffer.length ≤ offset → (readCString buffer offset).value = []) ∧
      ((∀ b ∈ buffer.drop offset, b ≠ 0) →
        (readCString buffer offset).newOffset = max offset buffer.length + 1) := by
  have hval : (readCString buffer offset).value =
      (buffer.drop offset).takeWhile (fun b => b != 0) := by
    show (buffer.drop offset).take (cstrEnd buffer offset - offset) = _
    rw [cstrEnd_eq]
    obtain ⟨t, ht⟩ := @List.takeWhile_prefix Nat (buffer.drop offset) (fun b => b != 0)
    calc (buffer.drop offset).take
          (offset + ((buffer.drop offset).takeWhile (fun b => b != 0)).length - offset)
        = (buffer.drop offset).take
            ((buffer.drop offset).takeWhile (fun b => b != 0)).length := by
          congr 1
          omega
      _ = _ := by
          have hl : ((buffer.drop offset).takeWhile (fun b => b != 0) ++ t).take
              ((buffer.drop offset).takeWhile (fun b => b != 0)).length =
              (buffer.drop offset).takeWhile (fun b => b != 0) :=
            List.take_left _ _
          rw [ht] at hl
          exact hl
  refine ⟨hval, ?_, ?_, ?_⟩
  · show cstrEnd buffer offset + 1 = _
    rw [cstrEnd_eq]
  · intro h
    rw [hval, List.drop_eq_nil_of_le h]
    simp
  · intro h
    show cstrEnd buffer offset + 1 = _
    rw [cstrEnd_eq]
    have : (buffer.drop offset).takeWhile (fun b => b != 0) = buffer.drop offset :=
      List.takeWhile_eq_self_iff.mpr (by intro x hx; simpa using h x hx)
    rw [this, List.length_drop]
    omega

/-! ## C4: bounds safety of decompressLZH -/

/-- The output invariant: the stored region of the output Buffer is exactly
min(outputPos, originalSize) bytes, so it never exceeds originalSize. -/
def WInv (size : Nat) (st : LZHState) : Prop :=
  st.written.length = min st.outputPos size

/-- The input invariant: every input index read so far is in range. -/
def RInv (input : List Nat) (st : LZHState) : Prop :=
  ∀ i ∈ st.reads, i < input.length

lemma bufWrite_WInv (size : Nat) (st : LZHState) (v : Nat) (h : WInv size st) :
    WInv size (bufWrite size st v) := by
  unfold WInv bufWrite at *
  split <;> simp <;> omega

lemma writeSpaces_inv (size : Nat) :
    ∀ (n : Nat) (st : LZHState), WInv size st →
      WInv size (writeSpaces size n st) ∧ (writeSpaces size n st).reads = st.reads := by
  intro n
  induction n with
  | zero => intro st h; exact ⟨h, rfl⟩
  | succ k ih =>
    intro st h
    have := ih (bufWrite size st 0x20) (bufWrite_WInv size st 0x20 h)
    simpa [writeSpaces, bufWrite] using this

lemma copyLoop_inv (size : Nat) :
    ∀ (n cp : Nat) (st : LZHState), WInv size st →
      WInv size (copyLoop size n cp st) ∧ (copyLoop size n cp st).reads = st.reads := by
  intro n
  induction n with
  | zero => intro cp st h; exact ⟨h, rfl⟩
  | succ k ih =>
    intro cp st h
    have := ih (cp + 1) (bufWrite size st (outReadByte st cp))
      (bufWrite_WInv size st _ h)
    simpa [copyLoop, bufWrite] using this

lemma padWhile_inv (size : Nat) (rpos : Int) :
    ∀ (fuel : Nat) (rlen : Int) (st : LZHState), WInv size st →
      WInv size (padWhile size rpos fuel rlen st).1 ∧
        (padWhile size rpos fuel rlen st).1.reads = st.reads := by
  intro fuel
  induction fuel with
  | zero =>
    intro rlen st h
    by_cases hr : rpos < 0 <;> simp [padWhile, hr, h]
  | succ k ih =>
    intro rlen st h
    by_cases hr : rpos < 0
    · have := ih (rlen - 1) (bufWrite size st 0x20) (bufWrite_WInv size st 0x20 h)
      simpa [padWhile, hr, bufWrite] using this
    · simp [padWhile, hr, h]

lemma innerLoop_inv (input : List Nat) (size fmt pf : Nat) :
    ∀ (n i : Nat) (st : LZHState), WInv size st → RInv input st →
      WInv size (innerLoop input size fmt pf n i st).1 ∧
        RInv input (innerLoop input size fmt pf n i st).1 := by
  intro n
  induction n with
  | zero => intro i st hw hr; exact ⟨hw, hr⟩
  | succ k ih =>
    intro i st hw hr
    have hst2w : WInv size
        { written := st.written, outputPos := st.outputPos, inputPos := st.inputPos + 2,
          reads := st.reads ++ [st.inputPos] ++ [st.inputPos + 1] } := by
      simpa [WInv] using hw
    simp only [innerLoop, noteRead]
    split
    · rename_i hcond
      have hip2 : st.inputPos + 2 < input.length := by
        rcases hcond with ⟨h1, h2⟩
        omega
      have hst2r : RInv input
          { written := st.written, outputPos := st.outputPos, inputPos := st.inputPos + 2,
            reads := st.reads ++ [st.inputPos] ++ [st.inputPos + 1] } := by
        intro j hj
        simp at hj
        rcases hj with hj | hj | hj
        · exact hr j hj
        · omega
        · omega
      split
    -- literal sub operation
      · apply ih
        · apply bufWrite_WInv
          simpa [WInv] using hw
        · intro j hj
          simp [bufWrite] at hj
          rcases hj with hj | hj
          · exact hr j hj
          · rcases hcond with ⟨h1, h2⟩
            omega
    -- back reference sub operation
      · split
        · apply ih
          · exact (writeSpaces_inv size _ _ hst2w).1
          · intro j hj
            rw [(writeSpaces_inv size _ _ hst2w).2] at hj
            exact hst2r j hj
        · split
          · split
            · apply ih
              · exact (copyLoop_inv size _ _ _ ((padWhile_inv size _ _ _ _ hst2w).1)).1
              · intro j hj
                rw [(copyLoop_inv size _ _ _ ((padWhile_inv size _ _ _ _ hst2w).1)).2,
                  (padWhile_inv size _ _ _ _ hst2w).2] at hj
                exact hst2r j hj
            · apply ih
              · exact (padWhile_inv size _ _ _ _ hst2w).1
              · intro j hj
                rw [(padWhile_inv size _ _ _ _ hst2w).2] at hj
                exact hst2r j hj
          · constructor
            · exact (padWhile_inv size _ _ _ _ hst2w).1
            · intro j hj
              rw [(padWhile_inv size _ _ _ _ hst2w).2] at hj
              exact hst2r j hj
    · exact ⟨hw, hr⟩

lemma roundsLoop_inv (input : List Nat) (size : Nat) :
    ∀ (fuel : Nat) (st : LZHState), WInv size st → RInv input st →
      WInv size (roundsLoop input size fuel st).1 ∧
        RInv input (roundsLoop input size fuel st).1 := by
  intro fuel
  induction fuel with
  | zero =>
    intro st hw hr
    by_cases hcond : st.outputPos < size ∧ st.inputPos < input.length <;>
      simp [roundsLoop, hcond] <;> exact ⟨hw, hr⟩
  | succ k ih =>
    intro st hw hr
    simp only [roundsLoop, noteRead]
    split
    · rename_i hcond
      have hst1w : WInv size
          { written := st.written, outputPos := st.outputPos, inputPos := st.inputPos + 1,
            reads := st.reads ++ [st.inputPos] } := by
        simpa [WInv] using hw
      have hst1r : RInv input
          { written := st.written, outputPos := st.outputPos, inputPos := st.inputPos + 1,
            reads := st.reads ++ [st.inputPos] } := by
        intro j hj
        simp at hj
        rcases hj with hj | hj
        · exact hr j hj
        · rcases hcond with ⟨h1, h2⟩
          omega
      have hinner := innerLoop_inv input size (input.getD st.inputPos 0) k 8 0 _ hst1w hst1r
      split
      · exact ih _ hinner.1 hinner.2
      · exact hinner
    · exact ⟨hw, hr⟩

/-- C4: decompressLZH never produces an output longer than originalSize
(the output Buffer is pre sized to originalSize and stores past it are
discarded, so the returned byte sequence has length exactly originalSize),
and every read of the compressed input is at an index strictly below its
length, for every fuel, input and originalSize, including runs the code
never finishes. -/
theorem C4_decompress_safety (fuel : Nat) (compressedData : List Nat) (originalSize : Nat) :
    (outputBytes originalSize (decompressLZH fuel compressedData originalSize).1).length =
        originalSize ∧
      ∀ i ∈ (decompressLZH fuel compressedData originalSize).1.reads,
        i < compressedData.length := by
  have h := roundsLoop_inv compressedData originalSize fuel
    { written := [], outputPos := 0, inputPos := 0, reads := [] }
    (by simp [WInv]) (by intro i hi; simp at hi)
  constructor
  · have hw := h.1
    unfold WInv at hw
    unfold decompressLZH outputBytes
    simp only [List.length_append, List.length_replicate]
    omega
  · exact h.2

/-! ## C5 and C7: the entry table loop -/

lemma cstrEnd_ge (buffer : List Nat) (offset : Nat) : offset ≤ cstrEnd buffer offset := by
  rw [cstrEnd_eq]
  omega

/-- A header entry read either succeeds, with the next offset at least 21
bytes further on and still inside the buffer, or fails with outOfBounds. -/
lemma readHeaderEntry_cases (buffer : List Nat) (offset : Nat) :
    (∃ he, readHeaderEntry buffer offset = .ok he ∧ offset + 21 ≤ he.newOffset ∧
        he.newOffset ≤ buffer.length) ∨
      readHeaderEntry buffer offset = .error PBOError.outOfBounds := by
  have hge : offset ≤ cstrEnd buffer offset := cstrEnd_ge buffer offset
  unfold readHeaderEntry readUInt32LE
  simp only [readCString]
  by_cases h5 : cstrEnd buffer offset + 1 + 16 + 4 ≤ buffer.length
  · have h1 : cstrEnd buffer offset + 1 + 4 ≤ buffer.length := by omega
    have h2 : cstrEnd buffer offset + 1 + 4 + 4 ≤ buffer.length := by omega
    have h3 : cstrEnd buffer offset + 1 + 8 + 4 ≤ buffer.length := by omega
    have h4 : cstrEnd buffer offset + 1 + 12 + 4 ≤ buffer.length := by omega
    rw [if_pos h1, if_pos h2, if_pos h3, if_pos h4, if_pos h5]
    left
    exact ⟨_, rfl, by simp; omega, by simp; omega⟩
  · right
    by_cases h1 : cstrEnd buffer offset + 1 + 4 ≤ buffer.length
    · rw [if_pos h1]
      by_cases h2 : cstrEnd buffer offset + 1 + 4 + 4 ≤ buffer.length
      · rw [if_pos h2]
        by_cases h3 : cstrEnd buffer offset + 1 + 8 + 4 ≤ buffer.length
        · rw [if_pos h3]
          by_cases h4 : cstrEnd buffer offset + 1 + 12 + 4 ≤ buffer.length
          · rw [if_pos h4, if_neg h5]
            rfl
          · rw [if_neg h4]
            rfl
        · rw [if_neg h3]
          rfl
      · rw [if_neg h2]
        rfl
    · rw [if_neg h1]
      rfl

lemma entryLoop_sufficient_fuel (buffer : List Nat) :
    ∀ (fuel offset : Nat) (acc : List HeaderEntry),
      buffer.length + 1 ≤ fuel + offset → 1 ≤ fuel →
      entryLoop buffer fuel offset acc ≠ none := by
  intro fuel
  induction fuel with
  | zero => intro offset acc h h1; omega
  | succ n ih =>
    intro offset acc hlen _
    rcases readHeaderEntry_cases buffer offset with ⟨he, hok, hlow, hhigh⟩ | herr
    · simp only [entryLoop, hok]
      by_cases hemp : he.fileName = []
      · simp [hemp]
      · rw [if_neg hemp]
        exact ih he.newOffset (acc ++ [he]) (by omega) (by omega)
    · simp [entryLoop, herr]

lemma entryLoop_error_oob (buffer : List Nat) :
    ∀ (fuel offset : Nat) (acc : List HeaderEntry) (e : PBOError),
      entryLoop buffer fuel offset acc = some (.error e) → e = PBOError.outOfBounds := by
  intro fuel
  induction fuel with
  | zero => intro offset acc e h; simp [entryLoop] at h
  | succ n ih =>
    intro offset acc e h
    rcases readHeaderEntry_cases buffer offset with ⟨he, hok, _, _⟩ | herr
    · simp only [entryLoop, hok] at h
      by_cases hemp : he.fileName = []
      · rw [if_pos hemp] at h
        simp at h
      · rw [if_neg hemp] at h
        exact ih he.newOffset (acc ++ [he]) e h
    · simp [entryLoop, herr] at h
      exact h.symm


/-- C5 amended: on every buffer the entry table loop, given fuel
buffer.length + 1, always halts with some outcome (each successful header
read advances the offset by at least 21 and stays inside the buffer, so the
fuel suffices), and whatever the fuel, a failing outcome can only carry
outOfBounds — never malformedArchive, which the code cannot produce. In
particular a truncated archive ends in an outOfBounds failure of the whole
parse rather than an infinite loop or a successful result. -/
theorem C5_entryLoop_amended (buffer : List Nat) (offset : Nat) (acc : List HeaderEntry) :
    entryLoop buffer (buffer.length + 1) offset acc ≠ none ∧
      ∀ (fuel : Nat) (e : PBOError),
        entryLoop buffer fuel offset acc = some (.error e) → e = PBOError.outOfBounds := by
  constructor
  · exact entryLoop_sufficient_fuel buffer (buffer.length + 1) offset acc (by omega) (by omega)
  · intro fuel e h
    exact entryLoop_error_oob buffer fuel offset acc e h

/-- Specification predicate for the entry table loop, following the spec:
starting at offset, the entries of the table are consecutive header reads
with nonempty fileNames, stopped by the first read whose fileName is empty;
that boundary marker is not part of the table, and the final offset is the
one just past the marker. -/
inductive TableChain (buffer : List Nat) : Nat → List HeaderEntry → Nat → Prop where
  | stop : ∀ (offset : Nat) (marker : HeaderEntry),
      readHeaderEntry buffer offset = .ok marker → marker.fileName = [] →
      TableChain buffer offset [] marker.newOffset
  | step : ∀ (offset : Nat) (e : HeaderEntry) (es : List HeaderEntry) (off1 : Nat),
      readHeaderEntry buffer offset = .ok e → e.fileName ≠ [] →
      TableChain buffer e.newOffset es off1 →
      TableChain buffer offset (e :: es) off1

lemma entryLoop_chain (buffer : List Nat) :
    ∀ (fuel offset : Nat) (acc tbl : List HeaderEntry) (off1 : Nat),
      entryLoop buffer fuel offset acc = some (.ok (tbl, off1)) →
      ∃ es, tbl = acc ++ es ∧ TableChain buffer offset es off1 := by
  intro fuel
  induction fuel with
  | zero => intro offset acc tbl off1 h; simp [entryLoop] at h
  | succ n ih =>
    intro offset acc tbl off1 h
    cases hre : readHeaderEntry buffer offset with
    | error e => simp [entryLoop, hre] at h
    | ok he =>
      by_cases hemp : he.fileName = []
      · simp only [entryLoop, hre, if_pos hemp] at h
        simp at h
        refine ⟨[], by simp [h.1.symm], ?_⟩
        rw [← h.2]
        exact TableChain.stop offset he hre hemp
      · simp only [entryLoop, hre, if_neg hemp] at h
        obtain ⟨es, hes, hchain⟩ := ih he.newOffset (acc ++ [he]) tbl off1 h
        exact ⟨he :: es, by simp [hes], TableChain.step offset he es off1 hre hemp hchain⟩

/-- C7 amended: whenever the entry table loop (the while loop of parse,
starting from any offset with an empty accumulator) returns a table, that
table consists of consecutive header entries with nonempty fileNames, in
read order, stopped by the first empty fileName entry the loop reads, which
is consumed but never included. The very first header entry of the archive
is outside this loop: parse handles it separately, and an empty fileName
there does not stop table building. -/
theorem C7_entryLoop_table (buffer : List Nat) (fuel offset : Nat)
    (tbl : List HeaderEntry) (off1 : Nat)
    (h : entryLoop buffer fuel offset [] = some (.ok (tbl, off1))) :
    TableChain buffer offset tbl off1 := by
  obtain ⟨es, hes, hchain⟩ := entryLoop_chain buffer fuel offset [] tbl off1 h
  simpa [hes] using hchain

/-- Witness for C7: on the 21 zero byte buffer the loop itself reads the
boundary marker at offset 0 and returns the empty table with offset 21. -/
theorem C7_entryLoop_table_witness :
    TableChain (List.replicate 21 0) 0 [] 21 :=
  C7_entryLoop_table (List.replicate 21 0) 5 0 [] 21 rfl

/-! ## C6: the extractor never skips a short packed entry -/

/-- C6 amended: the extraction loop never skips an entry for a
decompression shortfall and raises no DecompressionError: whenever it
returns, the paths of the returned records are the carried records paths
followed by the fileNames of exactly the entries whose extension is
included and whose packing method is known — packed entries included, no
matter whether their compressed bytes could fill originalSize (the output
is zero padded instead). -/
theorem C6_extractor_amended (buffer : List Nat) (fuel : Nat) (entries : List HeaderEntry)
    (offset : Nat) (acc files : List ExtractedFile)
    (h : processEntries buffer fuel entries offset acc = some files) :
    files.map (fun f => f.path) =
      acc.map (fun f => f.path) ++
        (entries.filter (fun e => includedExt e.fileName &&
          (e.packingMethod == PACKING_METHOD_UNCOMPRESSED ||
            e.packingMethod == PACKING_METHOD_PACKED))).map (fun e => e.fileName) := by
  induction entries generalizing offset acc files with
  | nil =>
    simp [processEntries] at h
    simp [h.symm]
  | cons entry rest ih =>
    by_cases hinc : includedExt entry.fileName
    · by_cases hm0 : entry.packingMethod = PACKING_METHOD_UNCOMPRESSED
      · simp only [processEntries, if_pos hinc, if_pos hm0] at h
        have := ih _ _ _ h
        simp [this, List.filter_cons, hinc, hm0, mkExtractedFile]
      · by_cases hm1 : entry.packingMethod = PACKING_METHOD_PACKED
        · simp only [processEntries, if_pos hinc, if_neg hm0, if_pos hm1] at h
          by_cases hd : (decompressLZH fuel ((buffer.drop offset).take entry.dataSize)
              entry.originalSize).2
          · rw [if_pos hd] at h
            have := ih _ _ _ h
            simp [this, List.filter_cons, hinc, hm0, hm1, mkExtractedFile]
          · rw [if_neg hd] at h
            simp at h
        · simp only [processEntries, if_pos hinc, if_neg hm0, if_neg hm1] at h
          have := ih _ _ _ h
          simp [this, List.filter_cons, hinc, hm0, hm1]
    · simp only [processEntries, if_neg hinc] at h
      have := ih _ _ _ h
      simp [this, List.filter_cons, hinc]

/-- A one entry table for the C6 witness: an uncompressed entry b.c of two
data bytes. -/
def plainEntry : HeaderEntry :=
  { fileName := [98, 46, 99], packingMethod := 0, originalSize := 2,
    reserved := 0, timeStamp := 0, dataSize := 2, newOffset := 0 }

/-- Witness for C6: the extractor over the single uncompressed entry b.c on
the two byte buffer "hi" returns the one matching record. -/
theorem C6_extractor_amended_witness :
    ([mkExtractedFile [98, 46, 99] [104, 105]]).map (fun f => f.path) =
      ([] : List ExtractedFile).map (fun f => f.path) ++
        (([plainEntry].filter (fun e => includedExt e.fileName &&
          (e.packingMethod == PACKING_METHOD_UNCOMPRESSED ||
            e.packingMethod == PACKING_METHOD_PACKED)))).map (fun e => e.fileName) :=
  C6_extractor_amended [104, 105] 1 [plainEntry] 0 [] [mkExtractedFile [98, 46, 99] [104, 105]] rfl

/-! ## C9: parse carries this.files across calls, additively -/

lemma processEntries_append (buffer : List Nat) (fuel : Nat) :
    ∀ (entries : List HeaderEntry) (offset : Nat) (acc : List ExtractedFile),
      processEntries buffer fuel entries offset acc =
        (processEntries buffer fuel entries offset []).map (fun l => acc ++ l) := by
  intro entries
  induction entries with
  | nil => intro offset acc; simp [processEntries]
  | cons entry rest ih =>
    intro offset acc
    by_cases hinc : includedExt entry.fileName
    · by_cases hm0 : entry.packingMethod = PACKING_METHOD_UNCOMPRESSED
      · simp only [processEntries, if_pos hinc, if_pos hm0]
        rw [ih _ (acc ++ [mkExtractedFile entry.fileName
            ((buffer.drop offset).take entry.dataSize)]),
          ih _ ([] ++ [mkExtractedFile entry.fileName
            ((buffer.drop offset).take entry.dataSize)])]
        simp [Option.map_map, Function.comp_def]
      · by_cases hm1 : entry.packingMethod = PACKING_METHOD_PACKED
        · simp only [processEntries, if_pos hinc, if_neg hm0, if_pos hm1]
          by_cases hd : (decompressLZH fuel ((buffer.drop offset).take entry.dataSize)
              entry.originalSize).2
          · rw [if_pos hd, if_pos hd]
            rw [ih _ (acc ++ [_]), ih _ ([] ++ [_])]
            simp [Option.map_map, Function.comp_def]
          · rw [if_neg hd, if_neg hd]
            rfl
        · simp only [processEntries, if_pos hinc, if_neg hm0, if_neg hm1]
          exact ih _ acc
    · simp only [processEntries, if_neg hinc]
      exact ih _ acc

/-- C9 amended: parse is not stateless across calls — this.files persists —
but the newly extracted part depends only on the buffer bytes: a call with
carried records filesState returns exactly filesState followed by the
result of a call with an empty state. Hence two successive calls over the
same archive return f and then f ++ f, which differ whenever f is
nonempty. -/
theorem C9_parse_state_additive (fuel : Nat) (filesState : List ExtractedFile)
    (buffer : List Nat) :
    parse fuel filesState buffer =
      (parse fuel [] buffer).map (Except.map (fun files => filesState ++ files)) := by
  unfold parse
  cases h0 : readHeaderEntry buffer 0 with
  | error e => simp [Except.map]
  | ok firstEntry =>
    dsimp only
    by_cases hprod : firstEntry.packingMethod = PACKING_METHOD_PRODUCT
    · rw [if_pos hprod]
      cases hp : propLoop buffer fuel firstEntry.newOffset with
      | none => simp
      | some off =>
        dsimp only
        cases hel : entryLoop buffer fuel off [] with
        | none => simp [hel]
        | some r =>
          cases r with
          | error e => simp [hel, Except.map]
          | ok res =>
            obtain ⟨entries, off1⟩ := res
            dsimp only
            rw [processEntries_append buffer fuel entries off1 filesState]
            cases hpe : processEntries buffer fuel entries off1 [] with
            | none => simp [hel, hpe]
            | some files => simp [hel, hpe, Except.map]
    · rw [if_neg hprod]
      by_cases hne : firstEntry.fileName ≠ []
      · rw [if_pos hne]
        dsimp only
        cases hel : entryLoop buffer fuel firstEntry.newOffset [firstEntry] with
        | none => simp [hel]
        | some r =>
          cases r with
          | error e => simp [hel, Except.map]
          | ok res =>
            obtain ⟨entries, off1⟩ := res
            dsimp only
            rw [processEntries_append buffer fuel entries off1 filesState]
            cases hpe : processEntries buffer fuel entries off1 [] with
            | none => simp [hel, hpe]
            | some files => simp [hel, hpe, Except.map]
      · rw [if_neg hne]
        dsimp only
        cases hel : entryLoop buffer fuel firstEntry.newOffset [] with
        | none => simp [hel]
        | some r =>
          cases r with
          | error e => simp [hel, Except.map]
          | ok res =>
            obtain ⟨entries, off1⟩ := res
            dsimp only
            rw [processEntries_append buffer fuel entries off1 filesState]
            cases hpe : processEntries buffer fuel entries off1 [] with
            | none => simp [hel, hpe]
            | some files => simp [hel, hpe, Except.map]

/-! ## C2: the all literal identity path, corrected -/

lemma getD_append_right_at (l1 l2 : List Nat) (n : Nat) :
    (l1 ++ l2).getD (l1.length + n) 0 = l2.getD n 0 := by
  simp [List.getD_eq_getElem?_getD,
    List.getElem?_append_right (by omega : l1.length ≤ l1.length + n)]

lemma innerLoop_lit_step (input : List Nat) (os fmt pf cnt i : Nat)
    (W rds : List Nat) (ip x : Nat)
    (hop : W.length < os) (hip : ip + 2 < input.length)
    (hbit : (fmt >>> i) &&& 1 = 1)
    (hbyte : input.getD ip 0 = x) (hx : x < 256) :
    innerLoop input os fmt pf (cnt + 1) i ⟨W, W.length, ip, rds⟩ =
      innerLoop input os fmt pf cnt (i + 1) ⟨W ++ [x], W.length + 1, ip + 1, rds ++ [ip]⟩ := by
  have hbyte2 : input[ip]?.getD 0 = x := by
    simpa [List.getD_eq_getElem?_getD] using hbyte
  simp only [innerLoop, noteRead]
  rw [if_pos ⟨hop, by omega⟩, if_pos hbit]
  congr 1
  simp [bufWrite, hop, hbyte2, Nat.mod_eq_of_lt hx]

lemma innerLoop_stop (input : List Nat) (os fmt pf cnt i : Nat) (st : LZHState)
    (hcond : ¬ (st.outputPos < os ∧ st.inputPos < input.length - 2)) :
    innerLoop input os fmt pf (cnt + 1) i st = (st, true) := by
  simp only [innerLoop]
  rw [if_neg hcond]

lemma roundsLoop_step_true (input : List Nat) (os fuel : Nat) (st : LZHState)
    (hcond : st.outputPos < os ∧ st.inputPos < input.length) :
    roundsLoop input os (fuel + 1) st =
      (if (innerLoop input os (input.getD st.inputPos 0) fuel 8 0
            { st with reads := st.reads ++ [st.inputPos], inputPos := st.inputPos + 1 }).2 = true
        then roundsLoop input os fuel
          (innerLoop input os (input.getD st.inputPos 0) fuel 8 0
            { st with reads := st.reads ++ [st.inputPos], inputPos := st.inputPos + 1 }).1
        else ((innerLoop input os (input.getD st.inputPos 0) fuel 8 0
          { st with reads := st.reads ++ [st.inputPos], inputPos := st.inputPos + 1 }).1,
            false)) := by
  simp only [roundsLoop, noteRead]
  rw [if_pos hcond]

lemma roundsLoop_exit (input : List Nat) (os fuel : Nat) (st : LZHState)
    (hcond : ¬ (st.outputPos < os ∧ st.inputPos < input.length)) :
    roundsLoop input os fuel st = (st, true) := by
  cases fuel <;> simp only [roundsLoop] <;> rw [if_neg hcond]

lemma innerLoop_lits (input : List Nat) (os pf fmt : Nat) :
    ∀ (xs : List Nat) (cnt i : Nat) (W rds : List Nat) (ip : Nat),
      (∀ j, j < xs.length → (fmt >>> (i + j)) &&& 1 = 1) →
      (∀ j, j < xs.length → input.getD (ip + j) 0 = xs.getD j 0) →
      (∀ x ∈ xs, x < 256) →
      xs.length ≤ cnt →
      W.length + xs.length ≤ os →
      ip + xs.length + 2 ≤ input.length →
      ∃ rds2, innerLoop input os fmt pf cnt i ⟨W, W.length, ip, rds⟩ =
        innerLoop input os fmt pf (cnt - xs.length) (i + xs.length)
          ⟨W ++ xs, W.length + xs.length, ip + xs.length, rds2⟩ := by
  intro xs
  induction xs with
  | nil =>
    intro cnt i W rds ip _ _ _ _ _ _
    exact ⟨rds, by simp⟩
  | cons x xs ih =>
    intro cnt i W rds ip hbits hbytes hlt hcnt hos hip
    obtain ⟨c, rfl⟩ : ∃ c, cnt = c + 1 := ⟨cnt - 1, by simp at hcnt; omega⟩
    have hstep := innerLoop_lit_step input os fmt pf c i W rds ip x
      (by simp at hos; omega) (by simp at hip; omega)
      (by have := hbits 0 (by simp); simpa using this)
      (by have := hbytes 0 (by simp); simpa using this)
      (hlt x (by simp))
    have hW1 : (W ++ [x]).length = W.length + 1 := by simp
    obtain ⟨rds2, hrec⟩ := ih c (i + 1) (W ++ [x]) (rds ++ [ip]) (ip + 1)
      (by intro j hj; have := hbits (j + 1) (by simp; omega)
          have harith : i + (j + 1) = i + 1 + j := by omega
          rwa [harith] at this)
      (by intro j hj; have := hbytes (j + 1) (by simp; omega)
          have harith : ip + (j + 1) = ip + 1 + j := by omega
          rwa [harith, List.getD_cons_succ] at this)
      (by intro y hy; exact hlt y (by simp [hy]))
      (by simp only [List.length_cons] at hcnt; omega)
      (by simp only [List.length_cons] at hos; simp only [List.length_append,
        List.length_cons, List.length_nil]; omega)
      (by simp only [List.length_cons] at hip; omega)
    rw [hW1] at hrec
    refine ⟨rds2, ?_⟩
    rw [hstep, hrec]
    simp only [List.length_cons]
    rw [show c + 1 - (xs.length + 1) = c - xs.length from by omega,
      show i + (xs.length + 1) = i + 1 + xs.length from by omega,
      show W.length + (xs.length + 1) = W.length + 1 + xs.length from by omega,
      show ip + (xs.length + 1) = ip + 1 + xs.length from by omega,
      show W ++ x :: xs = (W ++ [x]) ++ xs from by simp]


lemma getD_append_left_at (l1 l2 : List Nat) (n : Nat) (h : n < l1.length) :
    (l1 ++ l2).getD n 0 = l1.getD n 0 := by
  simp [List.getD_eq_getElem?_getD, List.getElem?_append_left h]

lemma flattenMap255_length (bs : List (List Nat)) (h : ∀ b ∈ bs, b.length = 8) :
    ((bs.map (fun b => 255 :: b)).flatten).length = 9 * bs.length := by
  induction bs with
  | nil => simp
  | cons b bs ih =>
    have h8 := h b (by simp)
    have := ih (fun x hx => h x (by simp [hx]))
    simp [this, h8]
    omega

lemma innerLoop_zero (input : List Nat) (os fmt pf i : Nat) (st : LZHState) :
    innerLoop input os fmt pf 0 i st = (st, true) := rfl

lemma roundsLoop_allLit (bs : List (List Nat)) :
    ∀ (P W rds : List Nat) (fuel : Nat),
      bs ≠ [] →
      (∀ b ∈ bs, b.length = 8 ∧ ∀ x ∈ b, x < 256) →
      bs.length + 2 ≤ fuel →
      ∃ rds2,
        roundsLoop (P ++ (bs.map (fun b => 255 :: b)).flatten) (W.length + 8 * bs.length) fuel
            ⟨W, W.length, P.length, rds⟩ =
          (⟨W ++ bs.flatten.take (8 * bs.length - 2), W.length + (8 * bs.length - 2),
            P.length + 9 * bs.length, rds2⟩, true) := by
  induction bs with
  | nil => intro P W rds fuel hne _ _; exact absurd rfl hne
  | cons b rest ih =>
    intro P W rds fuel _ hbs hfuel
    have hb8 : b.length = 8 := (hbs b (by simp)).1
    have hblt : ∀ x ∈ b, x < 256 := (hbs b (by simp)).2
    cases rest with
    | nil =>
      obtain ⟨f, rfl⟩ : ∃ f, fuel = f + 3 := ⟨fuel - 3,
        by simp only [List.length_cons, List.length_nil] at hfuel; omega⟩
      simp only [List.map_cons, List.map_nil, List.flatten_cons, List.flatten_nil,
        List.append_nil, List.length_cons, List.length_nil, Nat.zero_add, Nat.mul_one]
      have hlen : (P ++ 255 :: b).length = P.length + 9 := by simp [hb8]
      have hfmt : (P ++ 255 :: b).getD P.length 0 = 255 := by
        have := getD_append_right_at P (255 :: b) 0
        simpa using this
      have hlen6 : (b.take 6).length = 6 := by simp [hb8]
      obtain ⟨rds2, hlits⟩ := innerLoop_lits (P ++ 255 :: b) (W.length + 8) (f + 2) 255
        (b.take 6) 8 0 W (rds ++ [P.length]) (P.length + 1)
        (by intro j hj; rw [hlen6] at hj
            rw [show (0 + j : Nat) = j from by omega]
            interval_cases j <;> decide)
        (by intro j hj; rw [hlen6] at hj
            have h1 := getD_append_right_at P (255 :: b) (1 + j)
            rw [show P.length + 1 + j = P.length + (1 + j) from by omega, h1,
              show (1 + j : Nat) = j + 1 from by omega, List.getD_cons_succ]
            simp [List.getD_eq_getElem?_getD, List.getElem?_take_of_lt hj])
        (fun x hx => hblt x (List.take_subset 6 b hx))
        (by rw [hlen6]; omega)
        (by rw [hlen6]; omega)
        (by rw [hlen6, hlen])
      simp only [hlen6] at hlits
      norm_num at hlits
      refine ⟨rds2 ++ [P.length + 7] ++ [P.length + 8], ?_⟩
      rw [roundsLoop_step_true _ _ _ _ ⟨by dsimp only; omega, by dsimp only; rw [hlen]; omega⟩]
      dsimp only
      rw [hfmt, hlits]
      rw [innerLoop_stop _ _ _ _ 1 _ _ (by dsimp only; rw [hlen]; omega)]
      dsimp only
      rw [if_pos rfl]
      rw [roundsLoop_step_true _ _ _ _ ⟨by dsimp only; omega, by dsimp only; rw [hlen]; omega⟩]
      dsimp only
      rw [innerLoop_stop _ _ _ _ 7 _ _ (by dsimp only; rw [hlen]; omega)]
      dsimp only
      rw [if_pos rfl]
      rw [roundsLoop_step_true _ _ _ _ ⟨by dsimp only; omega, by dsimp only; rw [hlen]; omega⟩]
      dsimp only
      rw [innerLoop_stop _ _ _ _ 7 _ _ (by dsimp only; rw [hlen]; omega)]
      dsimp only
      rw [if_pos rfl]
      rw [roundsLoop_exit _ _ _ _ (by dsimp only; rw [hlen]; omega)]
    | cons b2 rest2 =>
      have hbs2 : ∀ x ∈ (b2 :: rest2), x.length = 8 ∧ ∀ y ∈ x, y < 256 :=
        fun x hx => hbs x (by simp [hx])
      obtain ⟨f, rfl⟩ : ∃ f, fuel = f + 1 := ⟨fuel - 1,
        by simp only [List.length_cons] at hfuel; omega⟩
      have hfuel2 : (b2 :: rest2).length + 2 ≤ f := by
        simp only [List.length_cons] at hfuel ⊢
        omega
      have hQlen : (P ++ 255 :: b).length = P.length + 9 := by simp [hb8]
      have hR : ((b2 :: rest2).map (fun x => 255 :: x)).flatten.length =
          9 * (b2 :: rest2).length :=
        flattenMap255_length _ (fun x hx => (hbs2 x hx).1)
      have hinp : P ++ ((b :: b2 :: rest2).map (fun x => 255 :: x)).flatten =
          (P ++ 255 :: b) ++ ((b2 :: rest2).map (fun x => 255 :: x)).flatten := by
        simp
      rw [hinp]
      have hIlen : ((P ++ 255 :: b) ++ ((b2 :: rest2).map (fun x => 255 :: x)).flatten).length =
          P.length + 9 + 9 * (b2 :: rest2).length := by
        rw [List.length_append, hQlen, hR]
      have hfmt : ((P ++ 255 :: b) ++
          ((b2 :: rest2).map (fun x => 255 :: x)).flatten).getD P.length 0 = 255 := by
        rw [getD_append_left_at _ _ _ (by rw [hQlen]; omega)]
        have := getD_append_right_at P (255 :: b) 0
        simpa using this
      obtain ⟨rds2, hlits⟩ := innerLoop_lits
        ((P ++ 255 :: b) ++ ((b2 :: rest2).map (fun x => 255 :: x)).flatten)
        (W.length + 8 * (b :: b2 :: rest2).length) f 255
        b 8 0 W (rds ++ [P.length]) (P.length + 1)
        (by intro j hj; rw [hb8] at hj
            rw [show (0 + j : Nat) = j from by omega]
            interval_cases j <;> decide)
        (by intro j hj; rw [hb8] at hj
            rw [getD_append_left_at _ _ _ (by rw [hQlen]; omega),
              show P.length + 1 + j = P.length + (1 + j) from by omega,
              getD_append_right_at,
              show (1 + j : Nat) = j + 1 from by omega, List.getD_cons_succ])
        hblt
        (by rw [hb8])
        (by rw [hb8]; simp only [List.length_cons]; omega)
        (by rw [hb8, hIlen]; simp only [List.length_cons]; omega)
      simp only [hb8] at hlits
      rw [show (8 - 8 : Nat) = 0 from rfl, show (0 + 8 : Nat) = 8 from rfl,
        show P.length + 1 + 8 = P.length + 9 from by omega] at hlits
      obtain ⟨rds3, H⟩ := ih (P ++ 255 :: b) (W ++ b) rds2 f (by simp) hbs2 hfuel2
      refine ⟨rds3, ?_⟩
      rw [roundsLoop_step_true _ _ _ _
        ⟨by dsimp only; simp only [List.length_cons]; omega,
          by dsimp only; rw [hIlen]; omega⟩]
      dsimp only
      rw [hfmt, hlits, innerLoop_zero]
      dsimp only
      rw [if_pos rfl]
      convert H using 2
      all_goals first
        | rfl
        | (simp only [List.length_append, List.length_cons, hb8]
           ring1)
        | (simp [List.length_append, hb8, hQlen]
           done)
        | (simp only [List.flatten_cons, List.length_cons, List.length_append, hb8,
             LZHState.mk.injEq]
           refine ⟨?_, by omega, by omega, trivial⟩
           have htk : List.take (8 * (rest2.length + 1 + 1) - 2) b = b :=
             List.take_of_length_le (by rw [hb8]; omega)
           rw [List.take_append_eq_append_take, htk, hb8,
             show 8 * (rest2.length + 1 + 1) - 2 - 8 = 8 * (rest2.length + 1) - 2 from by omega,
             List.append_assoc])


lemma flatten_length8 (bs : List (List Nat)) (h : ∀ b ∈ bs, b.length = 8) :
    bs.flatten.length = 8 * bs.length := by
  induction bs with
  | nil => simp
  | cons b bs ih =>
    have h8 := h b (by simp)
    have := ih (fun x hx => h x (by simp [hx]))
    simp [this, h8]
    omega

/-- C2 amended: decompressing a stream of all literal rounds (control byte
255 followed by its 8 literal bytes, repeated) with originalSize equal to
the literal count reproduces the literal bytes verbatim and in order,
except the last two, which the inner loop guard inputPos < length - 2
never copies; the output ends with two 0x00 bytes of the zero filled
output buffer instead. -/
theorem C2_identity_amended (blocks : List (List Nat)) (fuel : Nat)
    (hblocks : ∀ b ∈ blocks, b.length = 8 ∧ ∀ x ∈ b, x < 256)
    (hne : blocks ≠ [])
    (hfuel : blocks.length + 2 ≤ fuel) :
    (decompressLZH fuel ((blocks.map (fun b => 255 :: b)).flatten)
        blocks.flatten.length).2 = true ∧
      outputBytes blocks.flatten.length
          (decompressLZH fuel ((blocks.map (fun b => 255 :: b)).flatten)
            blocks.flatten.length).1 =
        blocks.flatten.take (blocks.flatten.length - 2) ++ [0, 0] := by
  have hlen1 : 1 ≤ blocks.length := by
    cases blocks with
    | nil => exact absurd rfl hne
    | cons x xs => simp
  have hflat : blocks.flatten.length = 8 * blocks.length :=
    flatten_length8 blocks (fun b hb => (hblocks b hb).1)
  rw [hflat]
  obtain ⟨rds2, hrl⟩ := roundsLoop_allLit blocks [] [] [] fuel hne hblocks hfuel
  simp only [List.length_nil, List.nil_append, Nat.zero_add] at hrl
  unfold decompressLZH
  rw [hrl]
  refine ⟨rfl, ?_⟩
  have hwl : (blocks.flatten.take (8 * blocks.length - 2)).length =
      8 * blocks.length - 2 := by
    rw [List.length_take, hflat]
    omega
  show blocks.flatten.take (8 * blocks.length - 2) ++
      List.replicate (8 * blocks.length -
        (blocks.flatten.take (8 * blocks.length - 2)).length) 0 = _
  rw [hwl, show 8 * blocks.length - (8 * blocks.length - 2) = 2 from by omega]
  rfl

/-- Witness for C2 amended at a concrete single round. -/
theorem C2_identity_amended_witness :
    (decompressLZH 10 (([[104, 101, 108, 108, 111, 33, 34, 35]].map
        (fun b => 255 :: b)).flatten)
        ([[104, 101, 108, 108, 111, 33, 34, 35]] : List (List Nat)).flatten.length).2 = true ∧
      outputBytes ([[104, 101, 108, 108, 111, 33, 34, 35]] : List (List Nat)).flatten.length
          (decompressLZH 10 (([[104, 101, 108, 108, 111, 33, 34, 35]].map
            (fun b => 255 :: b)).flatten)
            ([[104, 101, 108, 108, 111, 33, 34, 35]] : List (List Nat)).flatten.length).1 =
        ([[104, 101, 108, 108, 111, 33, 34, 35]] : List (List Nat)).flatten.take
          (([[104, 101, 108, 108, 111, 33, 34, 35]] : List (List Nat)).flatten.length - 2) ++
          [0, 0] :=
  C2_identity_amended [[104, 101, 108, 108, 111, 33, 34, 35]] 10
    (by decide) (by decide) (by decide)

end PBO
